import Mathlib

/-!
# Verification of the mongodb-type-assist core

A shallow embedding, in Lean 4, of the type-inference core of the
`mongodb-type-assist` program (files `src/types/typescript.rs`,
`src/types/structure.rs`, `src/types/mod.rs`, `src/process.rs`), together
with proofs about it.

Modelling conventions:
* `BTreeSet<TypeScriptType>` is modelled as a strictly sorted list
  (`TypeList`) under the comparator `tsCmp`, which mirrors the Rust
  `derive(Ord)` order on `TypeScriptType` (variant declaration index first,
  then payloads, sets and maps compared lexicographically in sorted order).
* `BTreeMap` is modelled as a sorted association list; insertion keeps the
  keys strictly sorted and replaces the value on an equal key.
* `rayon` parallel iteration over collections and the per-collection
  `Mutex` are modelled sequentially: the fold of one document is a single
  atomic step, which is exactly the discipline the mutex enforces, and in
  the sequential model no lock is ever poisoned, so `Mutex::into_inner`
  always succeeds.
* Fallible operations (a cursor that fails for a whole collection, a
  document that fails to decode, `Vec::remove(0)` on an empty vector)
  are modelled with `Except`/`Option`.
-/

namespace MTA

/-! ## Comparator infrastructure

`natCmp` mirrors the comparison of two variant-declaration indices, and
`strCmp` mirrors the `Ord` instance of Rust `String` (lexicographic; the
byte order of UTF-8 agrees with the code-point order used by Lean's
`compare` on `String`). -/

/-- Comparison of two `Nat`s as an `Ordering`, used for constructor indices. -/
def natCmp (a b : Nat) : Ordering :=
  if a < b then .lt else if b < a then .gt else .eq

/-- Lexicographic comparison of strings, as in Rust's `Ord for String`. -/
abbrev strCmp (a b : String) : Ordering := compare a b

/-! ## The Type Descriptor model

`TypeScriptType` is the enum of `src/types/typescript.rs`, with its
`Union(BTreeSet<TypeScriptType>)` payload modelled by `TypeList` and its
`Object(InnerDataStruct)` payload (a `BTreeMap<InnerFieldName,
TypeScriptType>`) modelled by `FieldList`.  The constructor order matches
the Rust declaration order, which fixes the derived `Ord`.

The `Map` constructor is an exception: `src/process.rs` refers to
`TypeScriptType::Map` but no declaration of that variant appears in the
provided sources.  Modelled from the spec: `Map` is the opaque map type a
per-(collection, field) override forces, rendered as a generic map type.
It is placed after all declared constructors so that the derived order on
the declared constructors is unaffected; no claim depends on how `Map`
itself is ordered relative to other descriptors. -/

mutual
inductive TypeScriptType where
  | Array : TypeScriptType → TypeScriptType
  | Object : FieldList → TypeScriptType
  | Number : TypeScriptType
  | BigInt : TypeScriptType
  | Null : TypeScriptType
  | String : TypeScriptType
  | Buffer : TypeScriptType
  | Boolean : TypeScriptType
  | Any : TypeScriptType
  | ObjectId : TypeScriptType
  | Timestamp : TypeScriptType
  | DateTime : TypeScriptType
  | MaxKey : TypeScriptType
  | MinKey : TypeScriptType
  | Undefined : TypeScriptType
  | Union : TypeList → TypeScriptType
  | Map : TypeScriptType
inductive TypeList where
  | nil : TypeList
  | cons : TypeScriptType → TypeList → TypeList
inductive FieldList where
  | nil : FieldList
  | cons : String → TypeScriptType → FieldList → FieldList
end

/-- The declaration index of each constructor, mirroring the variant order
of the Rust enum, which is what `derive(Ord)` compares first. -/
def TypeScriptType.ctorIdx : TypeScriptType → Nat
  | .Array _ => 0
  | .Object _ => 1
  | .Number => 2
  | .BigInt => 3
  | .Null => 4
  | .String => 5
  | .Buffer => 6
  | .Boolean => 7
  | .Any => 8
  | .ObjectId => 9
  | .Timestamp => 10
  | .DateTime => 11
  | .MaxKey => 12
  | .MinKey => 13
  | .Undefined => 14
  | .Union _ => 15
  | .Map => 16

/-- Plain list-style induction for `TypeList` (the default eliminator of a
mutual inductive has several motives, which the `induction` tactic cannot
use). -/
@[induction_eliminator]
def TypeList.inductionOn {motive : TypeList → Prop} (nil : motive .nil)
    (cons : ∀ x s, motive s → motive (.cons x s)) : ∀ s, motive s
  | .nil => nil
  | .cons x s => cons x s (TypeList.inductionOn nil cons s)

/-- Plain list-style induction for `FieldList`. -/
@[induction_eliminator]
def FieldList.inductionOn {motive : FieldList → Prop} (nil : motive .nil)
    (cons : ∀ k v r, motive r → motive (.cons k v r)) : ∀ fs, motive fs
  | .nil => nil
  | .cons k v r => cons k v r (FieldList.inductionOn nil cons r)

mutual
/-- The derived `Ord` on `TypeScriptType`: variant index first, payloads of
equal variants compared recursively (sets and maps lexicographically over
their sorted contents). -/
def tsCmp : TypeScriptType → TypeScriptType → Ordering
  | .Array a, .Array b => tsCmp a b
  | .Object fa, .Object fb => flCmp fa fb
  | .Union sa, .Union sb => tlCmp sa sb
  | a, b => natCmp a.ctorIdx b.ctorIdx
/-- Lexicographic comparison of two element sequences (`BTreeSet` iterates
in sorted order; a strict prefix is smaller). -/
def tlCmp : TypeList → TypeList → Ordering
  | .nil, .nil => .eq
  | .nil, .cons _ _ => .lt
  | .cons _ _, .nil => .gt
  | .cons x xs, .cons y ys => (tsCmp x y).then (tlCmp xs ys)
/-- Lexicographic comparison of two (key, value) sequences (`BTreeMap`
iterates in key order). -/
def flCmp : FieldList → FieldList → Ordering
  | .nil, .nil => .eq
  | .nil, .cons _ _ _ => .lt
  | .cons _ _ _, .nil => .gt
  | .cons k v r, .cons k' v' r' => ((strCmp k k').then (tsCmp v v')).then (flCmp r r')
end

/-- Payload-free constructors (everything except `Array`, `Object`, `Union`). -/
def TypeScriptType.noPayload : TypeScriptType → Prop
  | .Array _ => False
  | .Object _ => False
  | .Union _ => False
  | _ => True

/-! ## The `BTreeSet<TypeScriptType>` model

A set is a strictly `tsCmp`-sorted `TypeList`.  `insertTL` is
`BTreeSet::insert` (no-op on an element already present), `unionTL` is the
sorted merge that `set_a.union(set_b)` yields when collected into a fresh
set, `memT` is membership. -/

/-- Membership in an element sequence, by structural equality. -/
def memT (x : TypeScriptType) : TypeList → Bool
  | .nil => false
  | .cons y ys => if tsCmp x y = .eq then true else memT x ys

/-- `BTreeSet::insert` on the sorted-sequence model. -/
def insertTL (x : TypeScriptType) : TypeList → TypeList
  | .nil => .cons x .nil
  | .cons y ys => match tsCmp x y with
    | .lt => .cons x (.cons y ys)
    | .eq => .cons y ys
    | .gt => .cons y (insertTL x ys)

/-- `set_a.union(set_b)` collected into a fresh set: sorted merge with
deduplication. -/
def unionTL (s t : TypeList) : TypeList :=
  match s, t with
  | .nil, t => t
  | .cons x xs, .nil => .cons x xs
  | .cons x xs, .cons y ys => match tsCmp x y with
    | .lt => .cons x (unionTL xs (.cons y ys))
    | .eq => .cons x (unionTL xs ys)
    | .gt => .cons y (unionTL (.cons x xs) ys)
termination_by sizeOf s + sizeOf t
decreasing_by all_goals simp <;> omega

/-- `BTreeSet::len` on the model. -/
def lenT : TypeList → Nat
  | .nil => 0
  | .cons _ ys => lenT ys + 1

/-- `set.iter().next().unwrap_or(&Undefined)`: the least element, or the
default on an empty set. -/
def headD : TypeList → TypeScriptType → TypeScriptType
  | .nil, d => d
  | .cons x _, _ => x

/-- Strict sortedness of an element sequence: the representation invariant
of the `BTreeSet` model. -/
def sortedB : TypeList → Bool
  | .nil => true
  | .cons _ .nil => true
  | .cons x (.cons y ys) => (if tsCmp x y = .lt then true else false) && sortedB (.cons y ys)

/-- Is the descriptor a `Union`? -/
def isUnionB : TypeScriptType → Bool
  | .Union _ => true
  | _ => false

/-- No element of the sequence is a `Union`. -/
def allNonUnion : TypeList → Bool
  | .nil => true
  | .cons x xs => (!isUnionB x) && allNonUnion xs

/-! ## `TypeScriptType::merge` (src/types/typescript.rs, lines 66-92)

The Rust function first builds `set` by a four-way match, then collapses it
by arity.  `mergeSet` is the `let set = match (&self, &other) ...` part and
`collapse` the trailing `match set.len() ...` (the identical arity match
also ends the `FromIterator` impl, so it is factored out here). -/

/-- `match set.len() { 0 => Undefined, 1 => first element, _ => Union }`. -/
def collapse (set : TypeList) : TypeScriptType :=
  match lenT set with
  | 0 => .Undefined
  | 1 => headD set .Undefined
  | _ => .Union set

/-- The `let set = match (&self, &other) { ... }` of `merge`. -/
def mergeSet : TypeScriptType → TypeScriptType → TypeList
  | .Union sa, .Union sb => unionTL sa sb
  | .Union sa, b => insertTL b sa
  | a, .Union sb => insertTL a sb
  | a, b => insertTL b (insertTL a .nil)

/-- `TypeScriptType::merge`. -/
def TypeScriptType.merge (a b : TypeScriptType) : TypeScriptType :=
  collapse (mergeSet a b)

/-- The "alternatives" of a descriptor: a `Union`'s member set, otherwise
the singleton sequence. -/
def alts : TypeScriptType → TypeList
  | .Union s => s
  | a => .cons a .nil

/-! ## Canonical (well-formed) descriptors

The invariants of the spec data model: a `Union` holds at least two
members, strictly sorted, none itself a `Union`; `Object` keys are strictly
sorted; the invariants hold recursively. -/

mutual
/-- Canonicity of a Type Descriptor. -/
def WellFormed : TypeScriptType → Bool
  | .Array t => WellFormed t
  | .Object fs => wfFields fs
  | .Union s =>
      (decide (2 ≤ lenT s)) && sortedB s && allNonUnion s && wfMembers s
  | _ => true
/-- Canonicity of every member of a sequence. -/
def wfMembers : TypeList → Bool
  | .nil => true
  | .cons x xs => WellFormed x && wfMembers xs
/-- Canonicity of an `Object` payload: strictly sorted keys, canonical
values. -/
def wfFields : FieldList → Bool
  | .nil => true
  | .cons _ v .nil => WellFormed v
  | .cons k v (.cons k' v' r) =>
      (if strCmp k k' = .lt then true else false) && WellFormed v
        && wfFields (.cons k' v' r)
end

/-! ## Rendering (`print_typescript`, src/types/typescript.rs lines 41-64)

A `Union` renders as its members joined by `" | "` in the set's iteration
order, which is the sorted order of the model.  An `Object` renders through
`format!("{:#?}", self.0)`, i.e. the pretty `Debug` of the underlying
`BTreeMap`; its exact text is std formatting, modelled here structurally as
a braced block of `key: value,` lines in key order (deterministic; no claim
depends on the precise text of this block). -/

mutual
/-- `TypeScriptType::print_typescript`. -/
def print_typescript : TypeScriptType → String
  | .Array inner_type => print_typescript inner_type ++ "[]"
  | .Object data_structure => "\x7b\n" ++ printObjectFields data_structure ++ "\x7d"
  | .Number => "number"
  | .BigInt => "bigint"
  | .Null => "null"
  | .String => "string"
  | .Buffer => "Buffer"
  | .Boolean => "boolean"
  | .Any => "any"
  | .ObjectId => "ObjectId"
  | .Timestamp => "Timestamp"
  | .DateTime => "DateTime"
  | .MaxKey => "MaxKey"
  | .MinKey => "MinKey"
  | .Undefined => "undefined"
  | .Union types => String.intercalate " | " (printMembers types)
  | .Map => "Record<string, any>"
/-- The renderings of the members of a union, in set iteration order. -/
def printMembers : TypeList → List String
  | .nil => []
  | .cons t rest => print_typescript t :: printMembers rest
/-- The pretty `Debug` lines of an object's field map, in key order. -/
def printObjectFields : FieldList → String
  | .nil => ""
  | .cons k v rest => "    " ++ k ++ ": " ++ print_typescript v ++ ",\n"
      ++ printObjectFields rest
end

/-! ## The BSON value model

The classifier (`impl From<Bson> for TypeScriptType`) never inspects the
payload of a scalar value, only its variant, so scalar variants are
modelled without payloads.  `array` and `document` keep their recursive
payloads.  The variants that the Rust catch-all `_ => Self::Any` receives
are represented by `symbol`, `undefinedValue` and `dbPointer` (plus the
four extended-type variants when the flag is off). -/

mutual
inductive Bson where
  | array : BsonList → Bson
  | document : BsonDoc → Bson
  | double : Bson
  | int32 : Bson
  | int64 : Bson
  | decimal128 : Bson
  | string : Bson
  | regularExpression : Bson
  | javaScriptCode : Bson
  | binary : Bson
  | boolean : Bson
  | null : Bson
  | timestamp : Bson
  | dateTime : Bson
  | maxKey : Bson
  | minKey : Bson
  | objectId : Bson
  | symbol : Bson
  | undefinedValue : Bson
  | dbPointer : Bson
inductive BsonList where
  | nil : BsonList
  | cons : Bson → BsonList → BsonList
inductive BsonDoc where
  | nil : BsonDoc
  | cons : String → Bson → BsonDoc → BsonDoc
end

/-! ## Configuration (src/types/mod.rs)

Only the fields the embedded core reads are modelled: the extended-types
flag `mongodb_types` and the override list `parse_field_as_map` (an
`Option<Vec<ParseAsMap>>` in Rust, read through `unwrap_or_default`, so it
is modelled as the already-defaulted list). -/

/-- A per-(collection, field) map override entry. -/
structure ParseAsMap where
  collection : String
  field : String
deriving DecidableEq, BEq

/-- `ParseAsMap::new`. -/
def ParseAsMap.new (collection field : String) : ParseAsMap :=
  ⟨collection, field⟩

/-- The resolved configuration (the `CONFIG` global, passed explicitly). -/
structure Config where
  mongodb_types : Bool
  parse_field_as_map : List ParseAsMap

/-- `BTreeMap::insert` on the sorted `Object` payload model: keys stay
strictly sorted, an equal key has its value replaced. -/
def insertFL (k : String) (v : TypeScriptType) : FieldList → FieldList
  | .nil => .cons k v .nil
  | .cons k' v' r => match strCmp k k' with
    | .lt => .cons k v (.cons k' v' r)
    | .eq => .cons k v r
    | .gt => .cons k' v' (insertFL k v r)

mutual
/-- The Value Classifier: `impl From<Bson> for TypeScriptType`
(src/types/typescript.rs lines 107-141), with the `CONFIG` global passed
explicitly. -/
def fromBson (cfg : Config) : Bson → TypeScriptType
  | .array arr => .Array (collapse (collectArr cfg arr .nil))
  | .document d => .Object (collectDoc cfg d .nil)
  | .double => .Number
  | .int32 => .Number
  | .int64 => .BigInt
  | .decimal128 => .BigInt
  | .string => .String
  | .regularExpression => .String
  | .javaScriptCode => .String
  | .binary => .Buffer
  | .boolean => .Boolean
  | .null => .Null
  | .timestamp => if cfg.mongodb_types then .Timestamp else .Any
  | .dateTime => if cfg.mongodb_types then .DateTime else .Any
  | .maxKey => if cfg.mongodb_types then .MaxKey else .Any
  | .minKey => if cfg.mongodb_types then .MinKey else .Any
  | .objectId => if cfg.mongodb_types then .ObjectId else .String
  | .symbol => .Any
  | .undefinedValue => .Any
  | .dbPointer => .Any
/-- `array.into_iter().map(Self::from).collect::<Self>()`: the element
classifications inserted left to right into a fresh set (the collapse of
the resulting set is applied at the call site). -/
def collectArr (cfg : Config) : BsonList → TypeList → TypeList
  | .nil, acc => acc
  | .cons b rest, acc => collectArr cfg rest (insertTL (fromBson cfg b) acc)
/-- `document.into_iter().map(InnerFieldStruct::convert).collect()`: the
field classifications inserted left to right into a fresh map. -/
def collectDoc (cfg : Config) : BsonDoc → FieldList → FieldList
  | .nil, acc => acc
  | .cons k v rest, acc => collectDoc cfg rest (insertFL k (fromBson cfg v) acc)
end

/-! ## `BTreeMap` with string keys (schemas and the database schema)

`process.rs` aggregates into `ObjectStruct(BTreeMap<FieldName,
TypeScriptType>)` (named `DataStruct` in `structure.rs`) and
`parse_collections` collects into `CollectionStruct(BTreeMap<CollectionName,
...>)`.  Both are modelled as sorted association lists over plain `String`
keys (the field/collection newtypes are plain strings per the spec). -/

/-- `BTreeMap::insert`: sorted insert, replacing the value on an equal key. -/
def insertAL {β : Type} (k : String) (v : β) :
    List (String × β) → List (String × β)
  | [] => [(k, v)]
  | (k', v') :: r => match strCmp k k' with
    | .lt => (k, v) :: (k', v') :: r
    | .eq => (k, v) :: r
    | .gt => (k', v') :: insertAL k v r

/-- `BTreeMap::get`. -/
def lookupAL {β : Type} (k : String) : List (String × β) → Option β
  | [] => none
  | (k', v') :: r => if strCmp k k' = .eq then some v' else lookupAL k r

/-! ## The Schema Accumulator and Collection Orchestrator (src/process.rs)

`rayon`'s `into_par_iter` over collections and the per-collection
`Mutex<ObjectStruct>` are modelled sequentially; each document fold is the
single critical section the code takes the lock around.  `error_exit!` on a
poisoned lock cannot fire in the sequential model (nothing panics while
holding the lock), and `Mutex::into_inner` likewise always succeeds. -/

/-- A BSON document as consumed by `process_document`: its sequence of
(field name, value) pairs in insertion order. -/
abbrev Document := List (String × Bson)

/-- `ObjectStruct` (called `DataStruct` in `structure.rs`): one collection's
accumulated field-name to descriptor map. -/
abbrev ObjectStruct := List (String × TypeScriptType)

/-- `CollectionStruct`: the database schema. -/
abbrev CollectionStruct := List (String × ObjectStruct)

/-- `FieldStruct::convert`: classify one (field name, value) pair. -/
def FieldStruct.convert (cfg : Config) (field : String × Bson) :
    String × TypeScriptType :=
  (field.1, fromBson cfg field.2)

/-- One step of the per-field loop of `process_document`: classify the
field (honouring the map override), merge with the existing descriptor if
any, store the result, and tick the field off the optionality snapshot. -/
def processFieldStep (cfg : Config) (collection_name : String)
    (st : ObjectStruct × List String) (field : String × Bson) :
    ObjectStruct × List String :=
  let fieldPair :=
    if cfg.parse_field_as_map.contains (ParseAsMap.new collection_name field.1)
    then (field.1, TypeScriptType.Map)
    else FieldStruct.convert cfg field
  let new_types := match lookupAL fieldPair.1 st.1 with
    | some orig_types => orig_types.merge fieldPair.2
    | none => fieldPair.2
  (insertAL fieldPair.1 new_types st.1, st.2.erase fieldPair.1)

/-- One step of the trailing optionality loop: a field known to the schema
but absent from this document has its descriptor merged with `Undefined`. -/
def absentFieldStep (s : ObjectStruct) (field_name : String) : ObjectStruct :=
  let new_types := match lookupAL field_name s with
    | some orig_types => orig_types.merge .Undefined
    | none => TypeScriptType.Undefined
  insertAL field_name new_types s

/-- `process_document` (src/process.rs lines 51-112): fold one document
into a collection schema. -/
def process_document (cfg : Config) (collection_name : String)
    (collection_fields : ObjectStruct) (document : Document) : ObjectStruct :=
  let orig_field_names := collection_fields.map Prod.fst
  let folded := document.foldl (processFieldStep cfg collection_name)
    (collection_fields, orig_field_names)
  folded.2.foldl absentFieldStep folded.1

/-- `std::mem::size_of_val` applied to the `&Document` the sort key closure
receives.  `Document` is `Sized`, so this is `size_of::<Document>()`: a
compile-time constant, independent of the document's contents.  The
particular value is irrelevant (any constant induces the same ordering);
48 is the size of the struct on a 64-bit target. -/
def size_of_val (_ : Document) : Nat := 48

/-- Stable insertion for a descending sort by key: a document is placed
before the first strictly smaller key, after any equal key. -/
def insertByKeyDesc (key : Document → Nat) (d : Document) :
    List Document → List Document
  | [] => [d]
  | e :: es => if key e < key d then d :: e :: es else e :: insertByKeyDesc key d es

/-- Stable descending sort by key, as `sort_by_key` with
`cmp::Reverse` performs. -/
def sortByKeyDesc (key : Document → Nat) (docs : List Document) :
    List Document :=
  docs.foldl (fun acc d => insertByKeyDesc key d acc) []

/-- `documents.sort_by_key(|b| Reverse(size_of_val(b)))` from
`parse_collections`. -/
def sortDocs (docs : List Document) : List Document :=
  sortByKeyDesc size_of_val docs

/-- The document source: per collection either a fetch error for the whole
collection, or a finite stream of per-document decode results. -/
abbrev DbConn := String → Except String (List (Except String Document))

/-- The per-collection body of `parse_collections`: on a fetch error only a
log line is emitted and the accumulator is left empty; otherwise undecodable
documents are dropped, the rest sorted and folded one by one.  The final
`Mutex::into_inner` succeeds in the sequential model, so the collection
always yields a schema. -/
def processCollection (cfg : Config) (db : DbConn) (collection : String) :
    ObjectStruct :=
  match db collection with
  | .error _ => []
  | .ok results =>
      let documents := results.filterMap Except.toOption
      (sortDocs documents).foldl (process_document cfg collection) []

/-- `parse_collections` (src/process.rs lines 23-49). -/
def parse_collections (cfg : Config) (db : DbConn)
    (collections : List String) : CollectionStruct :=
  collections.foldl
    (fun acc collection =>
      insertAL collection (processCollection cfg db collection) acc) []

/-! ## Rendering a collection (src/types/structure.rs)

`Debug for CollectionName` uppercases the first character of the name via
`Vec::remove(0)`, which panics on an empty vector; the partiality is
modelled with `Option`.  `Debug for DataStruct` writes one
`  {field:?}!: {type:#?};` line per field, and `format_type` wraps the
block in the class header and a closing brace. -/

/-- `Debug for CollectionName`: `none` models the `Vec::remove(0)` panic on
the empty collection name. -/
def CollectionName.debugFmt (name : String) : Option String :=
  match name.data with
  | [] => none
  | c :: rest => some ("export class " ++ String.mk (c.toUpper :: rest) ++ " \x7b\n")

/-- `Debug for DataStruct`: the per-field lines (`FieldName`'s `Debug`
prefixes two further spaces). -/
def DataStruct.debugFmt : ObjectStruct → String
  | [] => ""
  | (field_name, fieldType) :: rest =>
      "  " ++ ("  " ++ field_name) ++ "!: " ++ print_typescript fieldType ++ ";\n"
        ++ DataStruct.debugFmt rest

/-- The `print_result` of `format_type`:
`format!("{collection_name:?}{structure:#?}}}")`. -/
def print_result (collection_name : String) (fields : ObjectStruct) :
    Option String :=
  (CollectionName.debugFmt collection_name).map
    (fun header => header ++ DataStruct.debugFmt fields ++ "\x7d")

/-! ## Helper definitions for the claims -/

/-- Plain list-style induction for `BsonList`. -/
@[induction_eliminator]
def BsonList.inductionOn {motive : BsonList → Prop} (nil : motive .nil)
    (cons : ∀ b s, motive s → motive (.cons b s)) : ∀ s, motive s
  | .nil => nil
  | .cons b s => cons b s (BsonList.inductionOn nil cons s)

/-- The classifications of the elements of an array, in element order. -/
def classifyList (cfg : Config) : BsonList → List TypeScriptType
  | .nil => []
  | .cons b rest => fromBson cfg b :: classifyList cfg rest

/-- The merge-fold of a list of descriptors: `Undefined` for the empty
list, otherwise the left fold of `merge` over the list. -/
def mergeFold : List TypeScriptType → TypeScriptType
  | [] => .Undefined
  | x :: xs => xs.foldl TypeScriptType.merge x

/-- `Union` members of a descriptor contain no nested `Union` (vacuously
true for a non-`Union` descriptor). -/
def noNestedUnion (a : TypeScriptType) : Bool :=
  allNonUnion (alts a)

/-! ## C1: fate of a collection whose fetch fails -/

/-- A concrete document source: fetching collection `"bad"` fails, fetching
anything else yields one decodable one-field document. -/
def dbC1 : DbConn := fun c =>
  if c = "bad" then .error "boom" else .ok [.ok [("x", .int32)]]

theorem natCmp_refl (a : Nat) : natCmp a a = .eq := by
  simp [natCmp]

theorem natCmp_eq_iff {a b : Nat} : natCmp a b = .eq ↔ a = b := by
  unfold natCmp
  split <;> [skip; split] <;> simp <;> omega

theorem natCmp_lt_iff {a b : Nat} : natCmp a b = .lt ↔ a < b := by
  unfold natCmp
  split <;> [skip; split] <;> simp <;> omega

theorem natCmp_gt_iff {a b : Nat} : natCmp a b = .gt ↔ b < a := by
  unfold natCmp
  split <;> [skip; split] <;> simp <;> omega

theorem strCmp_refl (a : String) : strCmp a a = .eq :=
  Batteries.OrientedCmp.cmp_refl

theorem strCmp_eq_iff {a b : String} : strCmp a b = .eq ↔ a = b :=
  Batteries.BEqCmp.cmp_iff_eq

theorem strCmp_swap (a b : String) : (strCmp a b).swap = strCmp b a :=
  Batteries.OrientedCmp.symm a b

theorem strCmp_lt_trans {a b c : String} (h₁ : strCmp a b = .lt)
    (h₂ : strCmp b c = .lt) : strCmp a c = .lt :=
  Batteries.TransCmp.lt_trans h₁ h₂

theorem strCmp_lt_irrefl {a b : String} (h : strCmp a b = .lt) : a ≠ b := by
  intro he
  rw [he, strCmp_refl] at h
  exact absurd h (by simp)

/-! ### Laws of the derived order

`tsCmp` is a lawful total order: reflexive, antisymmetric (`.eq` implies
equality), oriented (swapping arguments swaps the ordering) and
transitive.  These are the properties `derive(Ord)` guarantees in Rust and
everything the `BTreeSet` model needs. -/

theorem then_eq_eq {o p : Ordering} (h : o.then p = .eq) : o = .eq ∧ p = .eq := by
  cases o <;> simp_all [Ordering.then]

theorem then_lt {o p : Ordering} (h : o.then p = .lt) :
    o = .lt ∨ (o = .eq ∧ p = .lt) := by
  cases o <;> simp_all [Ordering.then]

theorem then_swap (o p : Ordering) : (o.then p).swap = o.swap.then p.swap := by
  cases o <;> cases p <;> rfl

theorem natCmp_swap (a b : Nat) : (natCmp a b).swap = natCmp b a := by
  rcases Nat.lt_trichotomy a b with h | h | h
  · simp [natCmp, h, Nat.lt_asymm h, Ordering.swap]
  · subst h
    simp [natCmp, Ordering.swap]
  · simp [natCmp, h, Nat.lt_asymm h, Ordering.swap]

/-- When the variant indices differ, `tsCmp` is the index comparison. -/
theorem tsCmp_of_idx_ne : ∀ {a b : TypeScriptType},
    a.ctorIdx ≠ b.ctorIdx → tsCmp a b = natCmp a.ctorIdx b.ctorIdx := by
  intro a b
  cases a <;> cases b <;> first
    | (intro h; exact absurd rfl h)
    | (intro _; rfl)

/-- A descriptor with the same variant index as an `Array` is an `Array`. -/
theorem idx_eq_array {x : TypeScriptType} : ∀ {b : TypeScriptType},
    (TypeScriptType.Array x).ctorIdx = b.ctorIdx → ∃ y, b = .Array y := by
  intro b
  cases b <;> simp [TypeScriptType.ctorIdx]

/-- A descriptor with the same variant index as an `Object` is an `Object`. -/
theorem idx_eq_object {fa : FieldList} : ∀ {b : TypeScriptType},
    (TypeScriptType.Object fa).ctorIdx = b.ctorIdx → ∃ fb, b = .Object fb := by
  intro b
  cases b <;> simp [TypeScriptType.ctorIdx]

/-- A descriptor with the same variant index as a `Union` is a `Union`. -/
theorem idx_eq_union {sa : TypeList} : ∀ {b : TypeScriptType},
    (TypeScriptType.Union sa).ctorIdx = b.ctorIdx → ∃ sb, b = .Union sb := by
  intro b
  cases b <;> simp [TypeScriptType.ctorIdx]

/-- A payload-free descriptor equals any descriptor sharing its index. -/
theorem eq_of_idx_eq_noPayload : ∀ {a b : TypeScriptType},
    a.noPayload → a.ctorIdx = b.ctorIdx → a = b := by
  intro a b hp hi
  cases a <;> cases b <;> first
    | rfl
    | exact hp.elim
    | (exfalso; simp [TypeScriptType.ctorIdx] at hi)

mutual
theorem tsCmp_refl : (a : TypeScriptType) → tsCmp a a = .eq
  | .Array x => tsCmp_refl x
  | .Object fa => flCmp_refl fa
  | .Union sa => tlCmp_refl sa
  | .Number => rfl
  | .BigInt => rfl
  | .Null => rfl
  | .String => rfl
  | .Buffer => rfl
  | .Boolean => rfl
  | .Any => rfl
  | .ObjectId => rfl
  | .Timestamp => rfl
  | .DateTime => rfl
  | .MaxKey => rfl
  | .MinKey => rfl
  | .Undefined => rfl
  | .Map => rfl
theorem tlCmp_refl : (s : TypeList) → tlCmp s s = .eq
  | .nil => rfl
  | .cons x xs => by
      show (tsCmp x x).then (tlCmp xs xs) = .eq
      rw [tsCmp_refl x, tlCmp_refl xs]
      rfl
theorem flCmp_refl : (fs : FieldList) → flCmp fs fs = .eq
  | .nil => rfl
  | .cons k v r => by
      show ((strCmp k k).then (tsCmp v v)).then (flCmp r r) = .eq
      rw [strCmp_refl k, tsCmp_refl v, flCmp_refl r]
      rfl
end

/-- Antisymmetry for payload-free left argument (no recursion needed). -/
theorem scalar_cmp_eq (a : TypeScriptType) (hp : a.noPayload) :
    ∀ {b : TypeScriptType}, tsCmp a b = .eq → a = b := by
  intro b h
  by_cases hi : a.ctorIdx = b.ctorIdx
  · exact eq_of_idx_eq_noPayload hp hi
  · rw [tsCmp_of_idx_ne hi] at h
    exact absurd (natCmp_eq_iff.mp h) hi

mutual
theorem tsCmp_eq : ∀ (a b : TypeScriptType), tsCmp a b = .eq → a = b
  | .Array x, b, h => by
      by_cases hi : (TypeScriptType.Array x).ctorIdx = b.ctorIdx
      · obtain ⟨y, rfl⟩ := idx_eq_array hi
        exact congrArg TypeScriptType.Array (tsCmp_eq x y h)
      · rw [tsCmp_of_idx_ne hi] at h
        exact absurd (natCmp_eq_iff.mp h) hi
  | .Object fa, b, h => by
      by_cases hi : (TypeScriptType.Object fa).ctorIdx = b.ctorIdx
      · obtain ⟨fb, rfl⟩ := idx_eq_object hi
        exact congrArg TypeScriptType.Object (flCmp_eq fa fb h)
      · rw [tsCmp_of_idx_ne hi] at h
        exact absurd (natCmp_eq_iff.mp h) hi
  | .Union sa, b, h => by
      by_cases hi : (TypeScriptType.Union sa).ctorIdx = b.ctorIdx
      · obtain ⟨sb, rfl⟩ := idx_eq_union hi
        exact congrArg TypeScriptType.Union (tlCmp_eq sa sb h)
      · rw [tsCmp_of_idx_ne hi] at h
        exact absurd (natCmp_eq_iff.mp h) hi
  | .Number, b, h => scalar_cmp_eq .Number trivial h
  | .BigInt, b, h => scalar_cmp_eq .BigInt trivial h
  | .Null, b, h => scalar_cmp_eq .Null trivial h
  | .String, b, h => scalar_cmp_eq .String trivial h
  | .Buffer, b, h => scalar_cmp_eq .Buffer trivial h
  | .Boolean, b, h => scalar_cmp_eq .Boolean trivial h
  | .Any, b, h => scalar_cmp_eq .Any trivial h
  | .ObjectId, b, h => scalar_cmp_eq .ObjectId trivial h
  | .Timestamp, b, h => scalar_cmp_eq .Timestamp trivial h
  | .DateTime, b, h => scalar_cmp_eq .DateTime trivial h
  | .MaxKey, b, h => scalar_cmp_eq .MaxKey trivial h
  | .MinKey, b, h => scalar_cmp_eq .MinKey trivial h
  | .Undefined, b, h => scalar_cmp_eq .Undefined trivial h
  | .Map, b, h => scalar_cmp_eq .Map trivial h
theorem tlCmp_eq : ∀ (s t : TypeList), tlCmp s t = .eq → s = t
  | .nil, .nil, _ => rfl
  | .nil, .cons _ _, h => nomatch h
  | .cons _ _, .nil, h => nomatch h
  | .cons x xs, .cons y ys, h => by
      obtain ⟨h1, h2⟩ := then_eq_eq h
      rw [tsCmp_eq x y h1, tlCmp_eq xs ys h2]
theorem flCmp_eq : ∀ (fs gs : FieldList), flCmp fs gs = .eq → fs = gs
  | .nil, .nil, _ => rfl
  | .nil, .cons _ _ _, h => nomatch h
  | .cons _ _ _, .nil, h => nomatch h
  | .cons k v r, .cons k' v' r', h => by
      obtain ⟨h1, h2⟩ := then_eq_eq h
      obtain ⟨h3, h4⟩ := then_eq_eq h1
      rw [strCmp_eq_iff.mp h3, tsCmp_eq v v' h4, flCmp_eq r r' h2]
end

/-- Orientation for payload-free left argument (no recursion needed). -/
theorem scalar_cmp_swap (a : TypeScriptType) (hp : a.noPayload) :
    ∀ (b : TypeScriptType), (tsCmp a b).swap = tsCmp b a := by
  intro b
  by_cases hi : a.ctorIdx = b.ctorIdx
  · obtain rfl := eq_of_idx_eq_noPayload hp hi
    rw [tsCmp_refl]
    rfl
  · rw [tsCmp_of_idx_ne hi, tsCmp_of_idx_ne (Ne.symm hi)]
    exact natCmp_swap _ _

mutual
theorem tsCmp_swap : ∀ (a b : TypeScriptType), (tsCmp a b).swap = tsCmp b a
  | .Array x, b => by
      by_cases hi : (TypeScriptType.Array x).ctorIdx = b.ctorIdx
      · obtain ⟨y, rfl⟩ := idx_eq_array hi
        exact tsCmp_swap x y
      · rw [tsCmp_of_idx_ne hi, tsCmp_of_idx_ne (Ne.symm hi)]
        exact natCmp_swap _ _
  | .Object fa, b => by
      by_cases hi : (TypeScriptType.Object fa).ctorIdx = b.ctorIdx
      · obtain ⟨fb, rfl⟩ := idx_eq_object hi
        exact flCmp_swap fa fb
      · rw [tsCmp_of_idx_ne hi, tsCmp_of_idx_ne (Ne.symm hi)]
        exact natCmp_swap _ _
  | .Union sa, b => by
      by_cases hi : (TypeScriptType.Union sa).ctorIdx = b.ctorIdx
      · obtain ⟨sb, rfl⟩ := idx_eq_union hi
        exact tlCmp_swap sa sb
      · rw [tsCmp_of_idx_ne hi, tsCmp_of_idx_ne (Ne.symm hi)]
        exact natCmp_swap _ _
  | .Number, b => scalar_cmp_swap .Number trivial b
  | .BigInt, b => scalar_cmp_swap .BigInt trivial b
  | .Null, b => scalar_cmp_swap .Null trivial b
  | .String, b => scalar_cmp_swap .String trivial b
  | .Buffer, b => scalar_cmp_swap .Buffer trivial b
  | .Boolean, b => scalar_cmp_swap .Boolean trivial b
  | .Any, b => scalar_cmp_swap .Any trivial b
  | .ObjectId, b => scalar_cmp_swap .ObjectId trivial b
  | .Timestamp, b => scalar_cmp_swap .Timestamp trivial b
  | .DateTime, b => scalar_cmp_swap .DateTime trivial b
  | .MaxKey, b => scalar_cmp_swap .MaxKey trivial b
  | .MinKey, b => scalar_cmp_swap .MinKey trivial b
  | .Undefined, b => scalar_cmp_swap .Undefined trivial b
  | .Map, b => scalar_cmp_swap .Map trivial b
theorem tlCmp_swap : ∀ (s t : TypeList), (tlCmp s t).swap = tlCmp t s
  | .nil, .nil => rfl
  | .nil, .cons _ _ => rfl
  | .cons _ _, .nil => rfl
  | .cons x xs, .cons y ys => by
      show ((tsCmp x y).then (tlCmp xs ys)).swap = (tsCmp y x).then (tlCmp ys xs)
      rw [then_swap, tsCmp_swap x y, tlCmp_swap xs ys]
theorem flCmp_swap : ∀ (fs gs : FieldList), (flCmp fs gs).swap = flCmp gs fs
  | .nil, .nil => rfl
  | .nil, .cons _ _ _ => rfl
  | .cons _ _ _, .nil => rfl
  | .cons k v r, .cons k' v' r' => by
      show (((strCmp k k').then (tsCmp v v')).then (flCmp r r')).swap
        = ((strCmp k' k).then (tsCmp v' v)).then (flCmp r' r)
      rw [then_swap, then_swap, strCmp_swap, tsCmp_swap v v', flCmp_swap r r']
end

theorem tsCmp_gt_iff_lt {a b : TypeScriptType} :
    tsCmp a b = .gt ↔ tsCmp b a = .lt := by
  rw [← tsCmp_swap b a]
  cases tsCmp b a <;> simp [Ordering.swap]

/-- Index-level skeleton of transitivity: except when all three descriptors
share a variant index, transitivity follows from index arithmetic alone. -/
theorem tsCmp_trans_outer {a b c : TypeScriptType}
    (h₁ : tsCmp a b = .lt) (h₂ : tsCmp b c = .lt) :
    (a.ctorIdx = b.ctorIdx ∧ b.ctorIdx = c.ctorIdx) ∨ tsCmp a c = .lt := by
  by_cases e₁ : a.ctorIdx = b.ctorIdx <;> by_cases e₂ : b.ctorIdx = c.ctorIdx
  · exact Or.inl ⟨e₁, e₂⟩
  · right
    rw [tsCmp_of_idx_ne e₂] at h₂
    have hbc := natCmp_lt_iff.mp h₂
    have hac : a.ctorIdx < c.ctorIdx := e₁ ▸ hbc
    rw [tsCmp_of_idx_ne (Nat.ne_of_lt hac)]
    exact natCmp_lt_iff.mpr hac
  · right
    rw [tsCmp_of_idx_ne e₁] at h₁
    have hab := natCmp_lt_iff.mp h₁
    have hac : a.ctorIdx < c.ctorIdx := e₂ ▸ hab
    rw [tsCmp_of_idx_ne (Nat.ne_of_lt hac)]
    exact natCmp_lt_iff.mpr hac
  · right
    rw [tsCmp_of_idx_ne e₁] at h₁
    rw [tsCmp_of_idx_ne e₂] at h₂
    have hac : a.ctorIdx < c.ctorIdx :=
      Nat.lt_trans (natCmp_lt_iff.mp h₁) (natCmp_lt_iff.mp h₂)
    rw [tsCmp_of_idx_ne (Nat.ne_of_lt hac)]
    exact natCmp_lt_iff.mpr hac

/-- Transitivity for payload-free left argument (no recursion needed). -/
theorem scalar_cmp_trans (a : TypeScriptType) (hp : a.noPayload)
    {b c : TypeScriptType} (h₁ : tsCmp a b = .lt) (h₂ : tsCmp b c = .lt) :
    tsCmp a c = .lt := by
  rcases tsCmp_trans_outer h₁ h₂ with ⟨e₁, _⟩ | hlt
  · obtain rfl := eq_of_idx_eq_noPayload hp e₁
    rw [tsCmp_refl] at h₁
    exact absurd h₁ (by simp)
  · exact hlt

mutual
theorem tsCmp_trans : ∀ (a b c : TypeScriptType),
    tsCmp a b = .lt → tsCmp b c = .lt → tsCmp a c = .lt
  | .Array x, b, c, h₁, h₂ => by
      rcases tsCmp_trans_outer h₁ h₂ with ⟨e₁, e₂⟩ | hlt
      · obtain ⟨y, rfl⟩ := idx_eq_array e₁
        obtain ⟨z, rfl⟩ := idx_eq_array e₂
        exact tsCmp_trans x y z h₁ h₂
      · exact hlt
  | .Object fa, b, c, h₁, h₂ => by
      rcases tsCmp_trans_outer h₁ h₂ with ⟨e₁, e₂⟩ | hlt
      · obtain ⟨fb, rfl⟩ := idx_eq_object e₁
        obtain ⟨fc, rfl⟩ := idx_eq_object e₂
        exact flCmp_trans fa fb fc h₁ h₂
      · exact hlt
  | .Union sa, b, c, h₁, h₂ => by
      rcases tsCmp_trans_outer h₁ h₂ with ⟨e₁, e₂⟩ | hlt
      · obtain ⟨sb, rfl⟩ := idx_eq_union e₁
        obtain ⟨sc, rfl⟩ := idx_eq_union e₂
        exact tlCmp_trans sa sb sc h₁ h₂
      · exact hlt
  | .Number, _, _, h₁, h₂ => scalar_cmp_trans .Number trivial h₁ h₂
  | .BigInt, _, _, h₁, h₂ => scalar_cmp_trans .BigInt trivial h₁ h₂
  | .Null, _, _, h₁, h₂ => scalar_cmp_trans .Null trivial h₁ h₂
  | .String, _, _, h₁, h₂ => scalar_cmp_trans .String trivial h₁ h₂
  | .Buffer, _, _, h₁, h₂ => scalar_cmp_trans .Buffer trivial h₁ h₂
  | .Boolean, _, _, h₁, h₂ => scalar_cmp_trans .Boolean trivial h₁ h₂
  | .Any, _, _, h₁, h₂ => scalar_cmp_trans .Any trivial h₁ h₂
  | .ObjectId, _, _, h₁, h₂ => scalar_cmp_trans .ObjectId trivial h₁ h₂
  | .Timestamp, _, _, h₁, h₂ => scalar_cmp_trans .Timestamp trivial h₁ h₂
  | .DateTime, _, _, h₁, h₂ => scalar_cmp_trans .DateTime trivial h₁ h₂
  | .MaxKey, _, _, h₁, h₂ => scalar_cmp_trans .MaxKey trivial h₁ h₂
  | .MinKey, _, _, h₁, h₂ => scalar_cmp_trans .MinKey trivial h₁ h₂
  | .Undefined, _, _, h₁, h₂ => scalar_cmp_trans .Undefined trivial h₁ h₂
  | .Map, _, _, h₁, h₂ => scalar_cmp_trans .Map trivial h₁ h₂
theorem tlCmp_trans : ∀ (s t u : TypeList),
    tlCmp s t = .lt → tlCmp t u = .lt → tlCmp s u = .lt
  | .nil, .nil, _, h₁, _ => nomatch h₁
  | .nil, .cons _ _, .nil, _, h₂ => nomatch h₂
  | .nil, .cons _ _, .cons _ _, _, _ => rfl
  | .cons _ _, .nil, _, h₁, _ => nomatch h₁
  | .cons _ _, .cons _ _, .nil, _, h₂ => nomatch h₂
  | .cons x xs, .cons y ys, .cons z zs, h₁, h₂ => by
      show (tsCmp x z).then (tlCmp xs zs) = .lt
      have h₁' : (tsCmp x y).then (tlCmp xs ys) = .lt := h₁
      have h₂' : (tsCmp y z).then (tlCmp ys zs) = .lt := h₂
      rcases then_lt h₁' with hxy | ⟨hxy, hxs⟩ <;>
        rcases then_lt h₂' with hyz | ⟨hyz, hys⟩
      · rw [tsCmp_trans x y z hxy hyz]
        rfl
      · obtain rfl := tsCmp_eq y z hyz
        rw [hxy]
        rfl
      · obtain rfl := tsCmp_eq x y hxy
        rw [hyz]
        rfl
      · obtain rfl := tsCmp_eq x y hxy
        obtain rfl := tsCmp_eq x z hyz
        rw [tsCmp_refl, tlCmp_trans xs ys zs hxs hys]
        rfl
theorem flCmp_trans : ∀ (fs gs hs : FieldList),
    flCmp fs gs = .lt → flCmp gs hs = .lt → flCmp fs hs = .lt
  | .nil, .nil, _, h₁, _ => nomatch h₁
  | .nil, .cons _ _ _, .nil, _, h₂ => nomatch h₂
  | .nil, .cons _ _ _, .cons _ _ _, _, _ => rfl
  | .cons _ _ _, .nil, _, h₁, _ => nomatch h₁
  | .cons _ _ _, .cons _ _ _, .nil, _, h₂ => nomatch h₂
  | .cons k v r, .cons k' v' r', .cons k'' v'' r'', h₁, h₂ => by
      show ((strCmp k k'').then (tsCmp v v'')).then (flCmp r r'') = .lt
      have h₁' : ((strCmp k k').then (tsCmp v v')).then (flCmp r r') = .lt := h₁
      have h₂' : ((strCmp k' k'').then (tsCmp v' v'')).then (flCmp r' r'') = .lt := h₂
      rcases then_lt h₁' with hh₁ | ⟨hh₁, hr₁⟩ <;>
        rcases then_lt h₂' with hh₂ | ⟨hh₂, hr₂⟩
      · rcases then_lt hh₁ with hk₁ | ⟨hk₁, hv₁⟩ <;>
          rcases then_lt hh₂ with hk₂ | ⟨hk₂, hv₂⟩
        · rw [strCmp_lt_trans hk₁ hk₂]
          rfl
        · obtain rfl := strCmp_eq_iff.mp hk₂
          rw [hk₁]
          rfl
        · obtain rfl := strCmp_eq_iff.mp hk₁
          rw [hk₂]
          rfl
        · obtain rfl := strCmp_eq_iff.mp hk₁
          obtain rfl := strCmp_eq_iff.mp hk₂
          rw [strCmp_refl]
          show (tsCmp v v'').then (flCmp r r'') = .lt
          rw [tsCmp_trans v v' v'' hv₁ hv₂]
          rfl
      · obtain ⟨hk₂, hv₂⟩ := then_eq_eq hh₂
        obtain rfl := strCmp_eq_iff.mp hk₂
        obtain rfl := tsCmp_eq v' v'' hv₂
        rw [hh₁]
        rfl
      · obtain ⟨hk₁, hv₁⟩ := then_eq_eq hh₁
        obtain rfl := strCmp_eq_iff.mp hk₁
        obtain rfl := tsCmp_eq v v' hv₁
        rw [hh₂]
        rfl
      · obtain ⟨hk₁, hv₁⟩ := then_eq_eq hh₁
        obtain rfl := strCmp_eq_iff.mp hk₁
        obtain rfl := tsCmp_eq v v' hv₁
        obtain ⟨hk₂, hv₂⟩ := then_eq_eq hh₂
        obtain rfl := strCmp_eq_iff.mp hk₂
        obtain rfl := tsCmp_eq v v'' hv₂
        rw [strCmp_refl, tsCmp_refl]
        show Ordering.eq.then (flCmp r r'') = .lt
        rw [flCmp_trans r r' r'' hr₁ hr₂]
        rfl
end

/-! ### Set lemmas -/

theorem memT_cons {a x : TypeScriptType} {s : TypeList} :
    memT a (.cons x s) = true ↔ a = x ∨ memT a s = true := by
  show (if tsCmp a x = .eq then true else memT a s) = true ↔ _
  split
  · rename_i h
    simp [tsCmp_eq a x h]
  · rename_i h
    constructor
    · exact Or.inr
    · rintro (rfl | hm)
      · exact absurd (tsCmp_refl a) h
      · exact hm

theorem memT_self (x : TypeScriptType) (s : TypeList) :
    memT x (.cons x s) = true := by
  rw [memT_cons]
  exact Or.inl rfl

theorem mem_insertTL {a x : TypeScriptType} : ∀ {s : TypeList},
    memT a (insertTL x s) = true ↔ a = x ∨ memT a s = true := by
  intro s
  induction s with
  | nil =>
      show memT a (.cons x .nil) = true ↔ _
      rw [memT_cons]
  | cons y ys ih =>
      show memT a (match tsCmp x y with
        | .lt => TypeList.cons x (.cons y ys)
        | .eq => TypeList.cons y ys
        | .gt => TypeList.cons y (insertTL x ys)) = true ↔ _
      cases h : tsCmp x y with
      | lt =>
          rw [memT_cons]
      | eq =>
          obtain rfl := tsCmp_eq x y h
          rw [memT_cons]
          tauto
      | gt =>
          rw [memT_cons, memT_cons, ih]
          tauto

/-- `sortedB` characterised through a strict lower bound on the tail. -/
theorem sortedB_cons_iff {x : TypeScriptType} : ∀ {s : TypeList},
    sortedB (.cons x s) = true ↔
      sortedB s = true ∧ ∀ z, memT z s = true → tsCmp x z = .lt := by
  intro s
  induction s generalizing x with
  | nil => simp [sortedB, memT]
  | cons y ys ih =>
      constructor
      · intro h
        have h' : (if tsCmp x y = .lt then true else false) = true
            ∧ sortedB (.cons y ys) = true := by
          simpa [sortedB] using h
        obtain ⟨hxy, hs⟩ := h'
        have hxy' : tsCmp x y = .lt := by
          by_contra hc
          simp [hc] at hxy
        refine ⟨hs, fun z hz => ?_⟩
        rcases memT_cons.mp hz with rfl | hz'
        · exact hxy'
        · have := (ih.mp hs).2 z hz'
          exact tsCmp_trans x y z hxy' this
      · rintro ⟨hs, hb⟩
        have hxy : tsCmp x y = .lt := hb y (memT_self y ys)
        simp [sortedB, hxy, hs]

theorem sortedB_tail {x : TypeScriptType} {s : TypeList}
    (h : sortedB (.cons x s) = true) : sortedB s = true :=
  (sortedB_cons_iff.mp h).1

theorem sorted_insertTL {x : TypeScriptType} : ∀ {s : TypeList},
    sortedB s = true → sortedB (insertTL x s) = true := by
  intro s
  induction s with
  | nil =>
      intro _
      show sortedB (.cons x .nil) = true
      simp [sortedB]
  | cons y ys ih =>
      intro hs
      show sortedB (match tsCmp x y with
        | .lt => TypeList.cons x (.cons y ys)
        | .eq => TypeList.cons y ys
        | .gt => TypeList.cons y (insertTL x ys)) = true
      obtain ⟨hys, hby⟩ := sortedB_cons_iff.mp hs
      cases h : tsCmp x y with
      | lt =>
          rw [sortedB_cons_iff]
          refine ⟨hs, fun z hz => ?_⟩
          rcases memT_cons.mp hz with rfl | hz'
          · exact h
          · exact tsCmp_trans x y z h (hby z hz')
      | eq => exact hs
      | gt =>
          rw [sortedB_cons_iff]
          refine ⟨ih hys, fun z hz => ?_⟩
          rcases mem_insertTL.mp hz with rfl | hz'
          · exact tsCmp_gt_iff_lt.mp h
          · exact hby z hz'

theorem mem_unionTL {a : TypeScriptType} : ∀ {s t : TypeList},
    memT a (unionTL s t) = true ↔ memT a s = true ∨ memT a t = true := by
  intro s t
  induction s, t using unionTL.induct with
  | case1 t => simp [unionTL, memT]
  | case2 x xs => simp [unionTL, memT]
  | case3 x xs y ys h ih =>
      rw [unionTL]
      simp only [h]
      simp only [memT_cons, ih]
      tauto
  | case4 x xs y ys h ih =>
      obtain rfl := tsCmp_eq x y h
      rw [unionTL]
      simp only [h]
      simp only [memT_cons, ih]
      tauto
  | case5 x xs y ys h ih =>
      rw [unionTL]
      simp only [h]
      simp only [memT_cons, ih]
      tauto

theorem sorted_unionTL : ∀ {s t : TypeList},
    sortedB s = true → sortedB t = true → sortedB (unionTL s t) = true := by
  intro s t
  induction s, t using unionTL.induct with
  | case1 t => intro _ ht; simpa [unionTL] using ht
  | case2 x xs => intro hs _; simpa [unionTL] using hs
  | case3 x xs y ys h ih =>
      intro hs ht
      rw [unionTL]
      simp only [h]
      obtain ⟨hxs, hbx⟩ := sortedB_cons_iff.mp hs
      obtain ⟨hys, hby⟩ := sortedB_cons_iff.mp ht
      rw [sortedB_cons_iff]
      refine ⟨ih hxs ht, fun z hz => ?_⟩
      rcases mem_unionTL.mp hz with hz' | hz'
      · exact hbx z hz'
      · rcases memT_cons.mp hz' with rfl | hz''
        · exact h
        · exact tsCmp_trans x y z h (hby z hz'')
  | case4 x xs y ys h ih =>
      intro hs ht
      obtain rfl := tsCmp_eq x y h
      rw [unionTL]
      simp only [h]
      obtain ⟨hxs, hbx⟩ := sortedB_cons_iff.mp hs
      obtain ⟨hys, hby⟩ := sortedB_cons_iff.mp ht
      rw [sortedB_cons_iff]
      refine ⟨ih hxs hys, fun z hz => ?_⟩
      rcases mem_unionTL.mp hz with hz' | hz'
      · exact hbx z hz'
      · exact hby z hz'
  | case5 x xs y ys h ih =>
      intro hs ht
      rw [unionTL]
      simp only [h]
      obtain ⟨hxs, hbx⟩ := sortedB_cons_iff.mp hs
      obtain ⟨hys, hby⟩ := sortedB_cons_iff.mp ht
      rw [sortedB_cons_iff]
      refine ⟨ih hs hys, fun z hz => ?_⟩
      have hyx : tsCmp y x = .lt := tsCmp_gt_iff_lt.mp h
      rcases mem_unionTL.mp hz with hz' | hz'
      · rcases memT_cons.mp hz' with rfl | hz''
        · exact hyx
        · exact tsCmp_trans y x z hyx (hbx z hz'')
      · exact hby z hz'

/-- Two strictly sorted sequences with the same members are equal. -/
theorem sorted_ext : ∀ {s t : TypeList}, sortedB s = true → sortedB t = true →
    (∀ x, memT x s = true ↔ memT x t = true) → s = t := by
  intro s
  induction s with
  | nil =>
      intro t _ ht hm
      cases t with
      | nil => rfl
      | cons y ys =>
          have := (hm y).mpr (memT_self y ys)
          simp [memT] at this
  | cons x xs ih =>
      intro t hs ht hm
      cases t with
      | nil =>
          have := (hm x).mp (memT_self x xs)
          simp [memT] at this
      | cons y ys =>
          obtain ⟨hxs, hbx⟩ := sortedB_cons_iff.mp hs
          obtain ⟨hys, hby⟩ := sortedB_cons_iff.mp ht
          have hxy : x = y := by
            rcases memT_cons.mp ((hm x).mp (memT_self x xs)) with h | hxys
            · exact h
            · rcases memT_cons.mp ((hm y).mpr (memT_self y ys)) with h | hyxs
              · exact h.symm
              · have h₁ := hby x hxys
                have h₂ := hbx y hyxs
                have := tsCmp_trans x y x h₂ h₁
                rw [tsCmp_refl] at this
                exact absurd this (by simp)
          subst hxy
          have htails : ∀ z, memT z xs = true ↔ memT z ys = true := by
            intro z
            constructor
            · intro hz
              rcases memT_cons.mp ((hm z).mp (memT_cons.mpr (Or.inr hz))) with rfl | h
              · have := hbx z hz
                rw [tsCmp_refl] at this
                exact absurd this (by simp)
              · exact h
            · intro hz
              rcases memT_cons.mp ((hm z).mpr (memT_cons.mpr (Or.inr hz))) with rfl | h
              · have := hby z hz
                rw [tsCmp_refl] at this
                exact absurd this (by simp)
              · exact h
          rw [ih hxs hys htails]

/-! ### The merge algebra -/

theorem unionTL_nil_right : ∀ (s : TypeList), unionTL s .nil = s
  | .nil => by rw [unionTL]
  | .cons _ _ => by rw [unionTL]

theorem unionTL_singleton_right {x : TypeScriptType} : ∀ {s : TypeList},
    unionTL s (.cons x .nil) = insertTL x s := by
  intro s
  induction s with
  | nil => rw [unionTL, insertTL]
  | cons y ys ih =>
      rw [unionTL]
      cases h : tsCmp y x with
      | lt =>
          have h' : tsCmp x y = .gt := tsCmp_gt_iff_lt.mpr h
          simp [insertTL, h, h', ih]
      | eq =>
          have h' : tsCmp x y = .eq := by
            obtain rfl := tsCmp_eq y x h
            exact tsCmp_refl y
          simp [insertTL, h, h', unionTL_nil_right]
      | gt =>
          have h' : tsCmp x y = .lt := tsCmp_gt_iff_lt.mp h
          simp [insertTL, h, h', unionTL_nil_right]

theorem unionTL_singleton_left {x : TypeScriptType} : ∀ {t : TypeList},
    unionTL (.cons x .nil) t = insertTL x t := by
  intro t
  induction t with
  | nil => rw [unionTL, insertTL]
  | cons y ys ih =>
      rw [unionTL]
      cases h : tsCmp x y with
      | lt => simp [insertTL, h, unionTL]
      | eq =>
          obtain rfl := tsCmp_eq x y h
          simp [insertTL, h, unionTL]
      | gt => simp [insertTL, h, ih]

/-- `mergeSet` is the union of the two alternative sequences. -/
theorem mergeSet_alt : ∀ (a b : TypeScriptType),
    mergeSet a b = unionTL (alts a) (alts b) := by
  intro a b
  cases a <;> cases b <;>
    simp [mergeSet, alts, unionTL_singleton_left, unionTL_singleton_right, insertTL]

theorem merge_alt (a b : TypeScriptType) :
    TypeScriptType.merge a b = collapse (unionTL (alts a) (alts b)) := by
  rw [TypeScriptType.merge, mergeSet_alt]

theorem collapse_pair (x y : TypeScriptType) (t : TypeList) :
    collapse (.cons x (.cons y t)) = .Union (.cons x (.cons y t)) := rfl

/-- A non-`Union` descriptor is its own singleton alternative sequence. -/
theorem alts_nonUnion {x : TypeScriptType} (h : isUnionB x = false) :
    alts x = .cons x .nil := by
  cases x <;> simp_all [isUnionB, alts]

theorem allNonUnion_of_mem : ∀ {s : TypeList} {x : TypeScriptType},
    allNonUnion s = true → memT x s = true → isUnionB x = false := by
  intro s
  induction s with
  | nil => intro x _ hm; simp [memT] at hm
  | cons y ys ih =>
      intro x ha hm
      have ha' : (!isUnionB y) = true ∧ allNonUnion ys = true := by
        simpa [allNonUnion] using ha
      rcases memT_cons.mp hm with rfl | hm'
      · simpa using ha'.1
      · exact ih ha'.2 hm'

theorem allNonUnion_insertTL {x : TypeScriptType} (hx : isUnionB x = false) :
    ∀ {s : TypeList}, allNonUnion s = true → allNonUnion (insertTL x s) = true := by
  intro s
  induction s with
  | nil =>
      intro _
      show allNonUnion (.cons x .nil) = true
      simp [allNonUnion, hx]
  | cons y ys ih =>
      intro hs
      have hs' : (!isUnionB y) = true ∧ allNonUnion ys = true := by
        simpa [allNonUnion] using hs
      show allNonUnion (match tsCmp x y with
        | .lt => TypeList.cons x (.cons y ys)
        | .eq => TypeList.cons y ys
        | .gt => TypeList.cons y (insertTL x ys)) = true
      cases tsCmp x y with
      | lt => simp [allNonUnion, hx, hs'.1, hs'.2]
      | eq => exact hs
      | gt => simp [allNonUnion, hs'.1, ih hs'.2]

theorem allNonUnion_unionTL : ∀ {s t : TypeList}, allNonUnion s = true →
    allNonUnion t = true → allNonUnion (unionTL s t) = true := by
  intro s t
  induction s, t using unionTL.induct with
  | case1 t => intro _ ht; simpa [unionTL] using ht
  | case2 x xs => intro hs _; simpa [unionTL] using hs
  | case3 x xs y ys h ih =>
      intro hs ht
      have hs' : (!isUnionB x) = true ∧ allNonUnion xs = true := by
        simpa [allNonUnion] using hs
      rw [unionTL]
      simp only [h]
      simp [allNonUnion, hs'.1, ih hs'.2 ht]
  | case4 x xs y ys h ih =>
      intro hs ht
      have hs' : (!isUnionB x) = true ∧ allNonUnion xs = true := by
        simpa [allNonUnion] using hs
      have ht' : (!isUnionB y) = true ∧ allNonUnion ys = true := by
        simpa [allNonUnion] using ht
      rw [unionTL]
      simp only [h]
      simp [allNonUnion, hs'.1, ih hs'.2 ht'.2]
  | case5 x xs y ys h ih =>
      intro hs ht
      have ht' : (!isUnionB y) = true ∧ allNonUnion ys = true := by
        simpa [allNonUnion] using ht
      rw [unionTL]
      simp only [h]
      simp [allNonUnion, ht'.1, ih hs ht'.2]

theorem unionTL_ne_nil : ∀ {s t : TypeList}, s ≠ .nil → unionTL s t ≠ .nil := by
  intro s t hs
  cases s with
  | nil => exact absurd rfl hs
  | cons x xs =>
      cases t with
      | nil => simp [unionTL]
      | cons y ys =>
          rw [unionTL]
          cases tsCmp x y <;> simp

theorem unionTL_comm {s t : TypeList} (hs : sortedB s = true)
    (ht : sortedB t = true) : unionTL s t = unionTL t s := by
  refine sorted_ext (sorted_unionTL hs ht) (sorted_unionTL ht hs) fun x => ?_
  rw [mem_unionTL, mem_unionTL]
  tauto

theorem unionTL_assoc {s t u : TypeList} (hs : sortedB s = true)
    (ht : sortedB t = true) (hu : sortedB u = true) :
    unionTL (unionTL s t) u = unionTL s (unionTL t u) := by
  refine sorted_ext (sorted_unionTL (sorted_unionTL hs ht) hu)
    (sorted_unionTL hs (sorted_unionTL ht hu)) fun x => ?_
  rw [mem_unionTL, mem_unionTL, mem_unionTL, mem_unionTL]
  tauto

theorem unionTL_self {s : TypeList} (hs : sortedB s = true) :
    unionTL s s = s := by
  refine sorted_ext (sorted_unionTL hs hs) hs fun x => ?_
  rw [mem_unionTL]
  tauto

theorem alts_sorted {a : TypeScriptType} (h : WellFormed a = true) :
    sortedB (alts a) = true := by
  cases a <;> simp_all [WellFormed, alts, sortedB]

theorem alts_allNonUnion {a : TypeScriptType} (h : WellFormed a = true) :
    allNonUnion (alts a) = true := by
  cases a <;> simp_all [WellFormed, alts, allNonUnion, isUnionB]

theorem alts_ne_nil {a : TypeScriptType} (h : WellFormed a = true) :
    alts a ≠ .nil := by
  cases a with
  | Union s =>
      have h2 : 2 ≤ lenT s := by
        have := h
        simp [WellFormed] at this
        exact this.1.1.1
      cases s with
      | nil => simp [lenT] at h2
      | cons x xs => simp [alts]
  | _ => simp [alts]

/-- Collapsing a nonempty sorted sequence of non-`Union`s gives back the
sequence as alternatives. -/
theorem alts_collapse {s : TypeList} (hne : s ≠ .nil)
    (hnu : allNonUnion s = true) : alts (collapse s) = s := by
  cases s with
  | nil => exact absurd rfl hne
  | cons x t =>
      cases t with
      | nil =>
          have hx : isUnionB x = false := by
            simpa [allNonUnion] using hnu
          show alts (collapse (.cons x .nil)) = .cons x .nil
          have : collapse (.cons x .nil) = x := rfl
          rw [this, alts_nonUnion hx]
      | cons y u =>
          rw [collapse_pair]
          rfl

/-- The alternatives of a merge are the union of the alternatives. -/
theorem alts_merge {a b : TypeScriptType} (ha : WellFormed a = true)
    (hb : WellFormed b = true) :
    alts (TypeScriptType.merge a b) = unionTL (alts a) (alts b) := by
  rw [merge_alt]
  exact alts_collapse (unionTL_ne_nil (alts_ne_nil ha))
    (allNonUnion_unionTL (alts_allNonUnion ha) (alts_allNonUnion hb))

/-- Collapsing the alternatives of a canonical descriptor gives it back. -/
theorem collapse_alts {a : TypeScriptType} (h : WellFormed a = true) :
    collapse (alts a) = a := by
  cases a with
  | Union s =>
      have h2 : 2 ≤ lenT s := by
        have := h
        simp [WellFormed] at this
        exact this.1.1.1
      show collapse s = .Union s
      cases s with
      | nil => simp [lenT] at h2
      | cons x t =>
          cases t with
          | nil => simp [lenT] at h2
          | cons y u => exact collapse_pair x y u
  | _ => rfl

/-- `merge` of canonical descriptors is commutative. -/
theorem merge_comm {a b : TypeScriptType} (ha : WellFormed a = true)
    (hb : WellFormed b = true) :
    TypeScriptType.merge a b = TypeScriptType.merge b a := by
  rw [merge_alt, merge_alt, unionTL_comm (alts_sorted ha) (alts_sorted hb)]

/-- `merge` of a canonical descriptor with itself is the identity. -/
theorem merge_idem {a : TypeScriptType} (ha : WellFormed a = true) :
    TypeScriptType.merge a a = a := by
  rw [merge_alt, unionTL_self (alts_sorted ha)]
  exact collapse_alts ha

/-- `merge` of canonical descriptors is associative. -/
theorem merge_assoc {a b c : TypeScriptType} (ha : WellFormed a = true)
    (hb : WellFormed b = true) (hc : WellFormed c = true) :
    TypeScriptType.merge (TypeScriptType.merge a b) c
      = TypeScriptType.merge a (TypeScriptType.merge b c) := by
  rw [merge_alt (TypeScriptType.merge a b) c, merge_alt a (TypeScriptType.merge b c),
    alts_merge ha hb, alts_merge hb hc,
    unionTL_assoc (alts_sorted ha) (alts_sorted hb) (alts_sorted hc)]

theorem lookupAL_insertAL_self {β : Type} (k : String) (v : β) :
    ∀ (l : List (String × β)), lookupAL k (insertAL k v l) = some v := by
  intro l
  induction l with
  | nil => simp [insertAL, lookupAL, strCmp_refl]
  | cons p r ih =>
      obtain ⟨k', v'⟩ := p
      show lookupAL k (match strCmp k k' with
        | .lt => (k, v) :: (k', v') :: r
        | .eq => (k, v) :: r
        | .gt => (k', v') :: insertAL k v r) = some v
      cases h : strCmp k k' with
      | lt => simp [lookupAL, strCmp_refl]
      | eq => simp [lookupAL, strCmp_refl]
      | gt =>
          have hne : ¬ strCmp k k' = .eq := by simp [h]
          simp [lookupAL, hne, ih]

theorem lookupAL_insertAL_ne {β : Type} {k q : String} (v : β) (hne : q ≠ k) :
    ∀ (l : List (String × β)), lookupAL q (insertAL k v l) = lookupAL q l := by
  intro l
  have hqk : ¬ strCmp q k = .eq := fun h => hne (strCmp_eq_iff.mp h)
  induction l with
  | nil => simp [insertAL, lookupAL, hqk]
  | cons p r ih =>
      obtain ⟨k', v'⟩ := p
      show lookupAL q (match strCmp k k' with
        | .lt => (k, v) :: (k', v') :: r
        | .eq => (k, v) :: r
        | .gt => (k', v') :: insertAL k v r) = lookupAL q ((k', v') :: r)
      cases h : strCmp k k' with
      | lt => simp [lookupAL, hqk]
      | eq =>
          obtain rfl := strCmp_eq_iff.mp h
          simp [lookupAL, hqk]
      | gt => simp [lookupAL, ih]

theorem lookupAL_none_not_mem {β : Type} {k : String} :
    ∀ {l : List (String × β)}, lookupAL k l = none → k ∉ l.map Prod.fst := by
  intro l
  induction l with
  | nil => simp
  | cons p r ih =>
      obtain ⟨k', v'⟩ := p
      intro h
      have : ¬ strCmp k k' = .eq ∧ lookupAL k r = none := by
        by_cases he : strCmp k k' = .eq
        · simp [lookupAL, he] at h
        · simpa [lookupAL, he] using h
      simp only [List.map_cons, List.mem_cons]
      rintro (rfl | hm)
      · exact this.1 (strCmp_refl k)
      · exact ih this.2 hm

/-! ## Claim-support lemmas -/

theorem insertTL_ne_nil (x : TypeScriptType) : ∀ (s : TypeList),
    insertTL x s ≠ .nil := by
  intro s
  cases s with
  | nil => simp [insertTL]
  | cons y ys =>
      simp only [insertTL]
      split <;> simp

/-- Folding `merge` from a collapsed set is collapsing the set extended by
the folded elements, as long as no `Union` ever appears as an element. -/
theorem foldl_merge_collapse : ∀ (l : List TypeScriptType) (S : TypeList),
    (∀ x ∈ l, isUnionB x = false) → sortedB S = true →
    allNonUnion S = true → S ≠ .nil →
    l.foldl TypeScriptType.merge (collapse S)
      = collapse (l.foldl (fun a x => insertTL x a) S) := by
  intro l
  induction l with
  | nil => intro S _ _ _ _; rfl
  | cons x xs ih =>
      intro S hl hs ha hne
      have hx : isUnionB x = false := hl x (by simp)
      have step : TypeScriptType.merge (collapse S) x = collapse (insertTL x S) := by
        rw [merge_alt, alts_collapse hne ha, alts_nonUnion hx,
          unionTL_singleton_right]
      show xs.foldl TypeScriptType.merge (TypeScriptType.merge (collapse S) x)
        = collapse (xs.foldl (fun a x => insertTL x a) (insertTL x S))
      rw [step]
      exact ih (insertTL x S) (fun y hy => hl y (by simp [hy]))
        (sorted_insertTL hs) (allNonUnion_insertTL hx ha) (insertTL_ne_nil x S)

/-- The classifier never returns a `Union` at the top level. -/
theorem fromBson_nonUnion (cfg : Config) : ∀ (b : Bson),
    isUnionB (fromBson cfg b) = false := by
  intro b
  cases b <;> simp only [fromBson] <;> (try split) <;> rfl

theorem classifyList_nonUnion (cfg : Config) : ∀ (l : BsonList),
    ∀ x ∈ classifyList cfg l, isUnionB x = false := by
  intro l
  induction l with
  | nil => simp [classifyList]
  | cons b rest ih =>
      intro x hx
      rcases (by simpa [classifyList] using hx :
          x = fromBson cfg b ∨ x ∈ classifyList cfg rest) with rfl | hx'
      · exact fromBson_nonUnion cfg b
      · exact ih x hx'

theorem collectArr_foldl (cfg : Config) : ∀ (l : BsonList) (acc : TypeList),
    collectArr cfg l acc
      = (classifyList cfg l).foldl (fun a x => insertTL x a) acc
  | .nil, _ => rfl
  | .cons b rest, acc => collectArr_foldl cfg rest (insertTL (fromBson cfg b) acc)

/-- If a collapse yields a `Union` and no element of the set is a `Union`,
the union's member sequence is the set itself. -/
theorem collapse_eq_union {S : TypeList} {s : TypeList}
    (h : collapse S = .Union s) (ha : allNonUnion S = true) : s = S := by
  cases S with
  | nil => exact absurd h (by simp [collapse, lenT])
  | cons x t =>
      cases t with
      | nil =>
          exfalso
          have hx : collapse (.cons x .nil) = x := rfl
          rw [hx] at h
          subst h
          simp [allNonUnion, isUnionB] at ha
      | cons y u =>
          rw [collapse_pair] at h
          exact (TypeScriptType.Union.injEq _ _).mp h.symm

/-- The no-op sort: `insertByKeyDesc` with the constant key appends. -/
theorem insertByKeyDesc_const (d : Document) : ∀ (l : List Document),
    insertByKeyDesc size_of_val d l = l ++ [d] := by
  intro l
  induction l with
  | nil => rfl
  | cons e es ih => simp [insertByKeyDesc, size_of_val, ih]

theorem sortDocs_aux : ∀ (docs : List Document) (acc : List Document),
    docs.foldl (fun acc d => insertByKeyDesc size_of_val d acc) acc
      = acc ++ docs := by
  intro docs
  induction docs with
  | nil => simp
  | cons d rest ih =>
      intro acc
      show rest.foldl _ (insertByKeyDesc size_of_val d acc) = acc ++ d :: rest
      rw [ih, insertByKeyDesc_const]
      simp

/-! ## The claims -/

/-- **C2** (code bug): the claim says documents are sorted in descending
order of document size before folding, so that documents with more fields
come first.  The sort key `std::mem::size_of_val(b)` is evaluated on a
`&Document`, whose pointee is `Sized`, so the key is the constant
`size_of::<Document>()`; the stable sort therefore never reorders anything.
The theorem shows the modelled sort is the identity on every input, and in
particular leaves a one-field document in front of a three-field document. -/
theorem claim_c2_sort_is_noop :
    (∀ docs : List Document, sortDocs docs = docs)
      ∧ sortDocs [[("a", Bson.int32)],
          [("a", Bson.int32), ("b", Bson.int32), ("c", Bson.int32)]]
        = [[("a", Bson.int32)],
          [("a", Bson.int32), ("b", Bson.int32), ("c", Bson.int32)]]
      ∧ ([("a", Bson.int32)] : Document).length
          < ([("a", Bson.int32), ("b", Bson.int32), ("c", Bson.int32)] : Document).length := by
  refine ⟨fun docs => ?_, ?_, by decide⟩
  · show sortByKeyDesc size_of_val docs = docs
    rw [sortByKeyDesc, sortDocs_aux]
    simp
  · rfl

/-- **C3**: for canonical Type Descriptors, `merge` is commutative,
idempotent and associative, so folding a multiset of descriptors through
`merge` yields the same result in every order. -/
theorem claim_c3_merge_laws (a b c : TypeScriptType)
    (ha : WellFormed a = true) (hb : WellFormed b = true)
    (hc : WellFormed c = true) :
    TypeScriptType.merge a b = TypeScriptType.merge b a
      ∧ TypeScriptType.merge a a = a
      ∧ TypeScriptType.merge (TypeScriptType.merge a b) c
          = TypeScriptType.merge a (TypeScriptType.merge b c) :=
  ⟨merge_comm ha hb, merge_idem ha, merge_assoc ha hb hc⟩

/-- Witness for C3 at concrete canonical descriptors. -/
theorem claim_c3_witness :
    WellFormed (.Union (.cons .Number (.cons .String .nil))) = true
      ∧ WellFormed (.Array .Number) = true
      ∧ WellFormed .Boolean = true
      ∧ (TypeScriptType.merge (.Union (.cons .Number (.cons .String .nil)))
            (.Array .Number)
          = TypeScriptType.merge (.Array .Number)
            (.Union (.cons .Number (.cons .String .nil)))
        ∧ TypeScriptType.merge (.Union (.cons .Number (.cons .String .nil)))
            (.Union (.cons .Number (.cons .String .nil)))
          = .Union (.cons .Number (.cons .String .nil))
        ∧ TypeScriptType.merge
            (TypeScriptType.merge (.Union (.cons .Number (.cons .String .nil)))
              (.Array .Number)) .Boolean
          = TypeScriptType.merge (.Union (.cons .Number (.cons .String .nil)))
            (TypeScriptType.merge (.Array .Number) .Boolean)) :=
  ⟨rfl, rfl, rfl,
    claim_c3_merge_laws (.Union (.cons .Number (.cons .String .nil)))
      (.Array .Number) .Boolean rfl rfl rfl⟩

/-- **C5**: when neither operand hides a nested `Union` among its union
members, a merge never produces a `Union` with a `Union` as direct member;
in particular `merge(Union{Number,String}, Boolean) =
Union{Number,String,Boolean}`. -/
theorem claim_c5_union_flattening :
    (∀ a b s, noNestedUnion a = true → noNestedUnion b = true →
        TypeScriptType.merge a b = .Union s → allNonUnion s = true)
      ∧ TypeScriptType.merge (.Union (.cons .Number (.cons .String .nil))) .Boolean
          = .Union (.cons .Number (.cons .String (.cons .Boolean .nil))) := by
  constructor
  · intro a b s ha hb hm
    rw [merge_alt] at hm
    have hall : allNonUnion (unionTL (alts a) (alts b)) = true :=
      allNonUnion_unionTL ha hb
    obtain rfl := collapse_eq_union hm hall
    exact hall
  · rfl

/-- Witness for C5: the hypotheses hold at the claim's own instance and the
conclusion is the flattened union. -/
theorem claim_c5_witness :
    noNestedUnion (.Union (.cons .Number (.cons .String .nil))) = true
      ∧ noNestedUnion .Boolean = true
      ∧ TypeScriptType.merge (.Union (.cons .Number (.cons .String .nil))) .Boolean
          = .Union (.cons .Number (.cons .String (.cons .Boolean .nil)))
      ∧ allNonUnion (.cons .Number (.cons .String (.cons .Boolean .nil))) = true :=
  ⟨rfl, rfl, rfl,
    claim_c5_union_flattening.1 (.Union (.cons .Number (.cons .String .nil)))
      .Boolean (.cons .Number (.cons .String (.cons .Boolean .nil))) rfl rfl rfl⟩

/-- **C6**: classifying an array yields `Array(T)` where `T` is the
merge-fold of the element classifications (so mixed element kinds produce a
union element type), and the empty array yields `Array(Undefined)`. -/
theorem claim_c6_array_fold (cfg : Config) (arr : BsonList) :
    fromBson cfg (.array arr) = .Array (mergeFold (classifyList cfg arr))
      ∧ fromBson cfg (.array .nil) = .Array .Undefined := by
  constructor
  · cases arr with
    | nil => rfl
    | cons b rest =>
        show TypeScriptType.Array (collapse (collectArr cfg (.cons b rest) .nil))
          = .Array (mergeFold (classifyList cfg (.cons b rest)))
        have h1 : collectArr cfg (.cons b rest) .nil
            = (classifyList cfg rest).foldl (fun a x => insertTL x a)
              (.cons (fromBson cfg b) .nil) :=
          collectArr_foldl cfg rest (insertTL (fromBson cfg b) .nil)
        have h2 : mergeFold (classifyList cfg (.cons b rest))
            = (classifyList cfg rest).foldl TypeScriptType.merge
              (collapse (.cons (fromBson cfg b) .nil)) := rfl
        rw [h1, h2, foldl_merge_collapse (classifyList cfg rest)
          (.cons (fromBson cfg b) .nil) (classifyList_nonUnion cfg rest)
          rfl (by simp [allNonUnion, fromBson_nonUnion cfg b]) (by simp)]
  · rfl

/-- **C7**: the extended-types toggle.  A unique identifier classifies as
`ObjectId` with the flag on and `String` with it off; a timestamp
classifies as `Timestamp` with the flag on and `Any` with it off. -/
theorem claim_c7_extended_types (pf : List ParseAsMap) :
    fromBson ⟨true, pf⟩ .objectId = .ObjectId
      ∧ fromBson ⟨false, pf⟩ .objectId = .String
      ∧ fromBson ⟨true, pf⟩ .timestamp = .Timestamp
      ∧ fromBson ⟨false, pf⟩ .timestamp = .Any :=
  ⟨rfl, rfl, rfl, rfl⟩

theorem lookupAL_parse (cfg : Config) (db : DbConn) :
    ∀ (cols : List String) (acc : CollectionStruct) (q : String),
    lookupAL q (cols.foldl
        (fun a c => insertAL c (processCollection cfg db c) a) acc)
      = if q ∈ cols then some (processCollection cfg db q) else lookupAL q acc := by
  intro cols
  induction cols with
  | nil => simp
  | cons c rest ih =>
      intro acc q
      show lookupAL q (rest.foldl _ (insertAL c (processCollection cfg db c) acc)) = _
      rw [ih]
      by_cases hq : q ∈ rest
      · simp [hq]
      · by_cases hqc : q = c
        · subst hqc
          simp [hq, lookupAL_insertAL_self]
        · simp [hq, hqc, lookupAL_insertAL_ne _ hqc]

/-- On a fetch error the per-collection body leaves the accumulator empty
but still yields it. -/
theorem processCollection_error {cfg : Config} {db : DbConn} {c msg : String}
    (h : db c = .error msg) : processCollection cfg db c = [] := by
  simp [processCollection, h]

/-- **C1** (counterexample): the claim says a collection whose fetch fails
contributes no entry to the returned `CollectionStruct`.  In the code the
error branch of `map_or_else` only logs; `collection_fields` stays empty,
the `Mutex` is not poisoned, and `filter_map` receives `Some`, so the
collection appears with an empty schema. -/
theorem claim_c1_counterexample :
    dbC1 "bad" = .error "boom"
      ∧ lookupAL "bad" (parse_collections ⟨false, []⟩ dbC1 ["bad", "good"])
          = some []
      ∧ (lookupAL "bad" (parse_collections ⟨false, []⟩ dbC1 ["bad", "good"])).isSome
          = true :=
  ⟨rfl, rfl, rfl⟩

/-- **C1** (amended): a collection whose fetch fails is present in the
returned `CollectionStruct` with an empty schema, and every listed
collection's entry is exactly what its own document stream yields — other
collections are unaffected. -/
theorem claim_c1_fetch_error (cfg : Config) (db : DbConn)
    (cols : List String) (c msg : String) (hc : c ∈ cols)
    (hdb : db c = .error msg) :
    lookupAL c (parse_collections cfg db cols) = some []
      ∧ ∀ c' ∈ cols, lookupAL c' (parse_collections cfg db cols)
          = some (processCollection cfg db c') := by
  have hmain : ∀ c' ∈ cols, lookupAL c' (parse_collections cfg db cols)
      = some (processCollection cfg db c') := by
    intro c' hc'
    show lookupAL c' (cols.foldl _ []) = _
    rw [lookupAL_parse]
    simp [hc']
  refine ⟨?_, hmain⟩
  rw [hmain c hc, processCollection_error hdb]

/-- Witness for C1 at the concrete failing source. -/
theorem claim_c1_witness :
    ("bad" ∈ ["bad", "good"]) ∧ dbC1 "bad" = .error "boom"
      ∧ lookupAL "bad" (parse_collections ⟨false, []⟩ dbC1 ["bad", "good"])
          = some []
      ∧ ∀ c' ∈ ["bad", "good"],
          lookupAL c' (parse_collections ⟨false, []⟩ dbC1 ["bad", "good"])
            = some (processCollection ⟨false, []⟩ dbC1 c') :=
  ⟨by simp, rfl,
    (claim_c1_fetch_error ⟨false, []⟩ dbC1 ["bad", "good"] "bad" "boom"
      (by simp) rfl).1,
    (claim_c1_fetch_error ⟨false, []⟩ dbC1 ["bad", "good"] "bad" "boom"
      (by simp) rfl).2⟩

/-- **C4**: folding `{a:1,b:2}` then `{a:3}` into an empty schema yields
`a : Number` (present in every document, non-optional) and
`b : Union{Number, Undefined}` (absent from the second document, so its
stored descriptor was merged with `Undefined`). -/
theorem claim_c4_optionality :
    lookupAL "a" (process_document ⟨false, []⟩ "users"
        (process_document ⟨false, []⟩ "users" [] [("a", .int32), ("b", .int32)])
        [("a", .int32)]) = some .Number
      ∧ lookupAL "b" (process_document ⟨false, []⟩ "users"
          (process_document ⟨false, []⟩ "users" [] [("a", .int32), ("b", .int32)])
          [("a", .int32)]) = some (.Union (.cons .Number (.cons .Undefined .nil)))
      ∧ process_document ⟨false, []⟩ "users"
          (process_document ⟨false, []⟩ "users" [] [("a", .int32), ("b", .int32)])
          [("a", .int32)]
        = [("a", .Number), ("b", .Union (.cons .Number (.cons .Undefined .nil)))] :=
  ⟨rfl, rfl, rfl⟩

/-! ## C8: the map override -/

theorem merge_map_map : TypeScriptType.merge .Map .Map = .Map := rfl

/-- The snapshot component of a per-field step: the field is ticked off. -/
theorem step_snd (cfg : Config) (cname : String)
    (st : ObjectStruct × List String) (field : String × Bson) :
    (processFieldStep cfg cname st field).2 = st.2.erase field.1 := by
  simp only [processFieldStep, FieldStruct.convert]
  split <;> rfl

/-- The schema component of a per-field step is an insert at the field's
own name. -/
theorem step_fst (cfg : Config) (cname : String)
    (st : ObjectStruct × List String) (field : String × Bson) :
    ∃ nv, (processFieldStep cfg cname st field).1
      = insertAL field.1 nv st.1 := by
  simp only [processFieldStep, FieldStruct.convert]
  split <;> exact ⟨_, rfl⟩

theorem step_map_stays {cfg : Config} {cname f : String}
    (hov : cfg.parse_field_as_map.contains (ParseAsMap.new cname f) = true)
    (st : ObjectStruct × List String) (field : String × Bson)
    (hm : lookupAL f st.1 = some .Map) :
    lookupAL f (processFieldStep cfg cname st field).1 = some .Map := by
  obtain ⟨g, v⟩ := field
  by_cases hg : g = f
  · subst hg
    show lookupAL g ((processFieldStep cfg cname st (g, v)).1) = some .Map
    simp only [processFieldStep, hov, if_true]
    rw [hm]
    have : TypeScriptType.merge .Map .Map = .Map := merge_map_map
    exact this ▸ lookupAL_insertAL_self g _ st.1
  · obtain ⟨nv, hnv⟩ := step_fst cfg cname st (g, v)
    rw [hnv, lookupAL_insertAL_ne nv (fun h => hg h.symm)]
    exact hm

theorem fold_map_stays {cfg : Config} {cname f : String}
    (hov : cfg.parse_field_as_map.contains (ParseAsMap.new cname f) = true) :
    ∀ (doc : Document) (st : ObjectStruct × List String),
    lookupAL f st.1 = some .Map →
    lookupAL f (doc.foldl (processFieldStep cfg cname) st).1 = some .Map := by
  intro doc
  induction doc with
  | nil => intro st hm; exact hm
  | cons field rest ih =>
      intro st hm
      exact ih (processFieldStep cfg cname st field)
        (step_map_stays hov st field hm)

theorem fold_establishes_map {cfg : Config} {cname f : String}
    (hov : cfg.parse_field_as_map.contains (ParseAsMap.new cname f) = true) :
    ∀ (doc : Document) (st : ObjectStruct × List String),
    lookupAL f st.1 = none → (∃ v, (f, v) ∈ doc) →
    lookupAL f (doc.foldl (processFieldStep cfg cname) st).1 = some .Map := by
  intro doc
  induction doc with
  | nil =>
      intro st _ hex
      obtain ⟨v, hv⟩ := hex
      simp at hv
  | cons field rest ih =>
      intro st hnone hex
      obtain ⟨g, v⟩ := field
      by_cases hg : g = f
      · subst hg
        refine fold_map_stays hov rest _ ?_
        show lookupAL g ((processFieldStep cfg cname st (g, v)).1) = some .Map
        simp only [processFieldStep, hov, if_true]
        rw [hnone]
        exact lookupAL_insertAL_self g .Map st.1
      · obtain ⟨v', hv'⟩ := hex
        have hv'' : (f, v') ∈ rest := by
          rcases List.mem_cons.mp hv' with heq | hm
          · exact absurd (Prod.ext_iff.mp heq).1.symm hg
          · exact hm
        refine ih (processFieldStep cfg cname st (g, v)) ?_ ⟨v', hv''⟩
        obtain ⟨nv, hnv⟩ := step_fst cfg cname st (g, v)
        rw [hnv, lookupAL_insertAL_ne nv (fun h => hg h.symm)]
        exact hnone

theorem fold_snapshot_subset (cfg : Config) (cname : String) :
    ∀ (doc : Document) (st : ObjectStruct × List String) (x : String),
    x ∈ (doc.foldl (processFieldStep cfg cname) st).2 → x ∈ st.2 := by
  intro doc
  induction doc with
  | nil => intro st x h; exact h
  | cons field rest ih =>
      intro st x h
      have := ih (processFieldStep cfg cname st field) x h
      rw [step_snd] at this
      exact List.mem_of_mem_erase this

theorem absent_map_stays {f : String} :
    ∀ (names : List String) (s : ObjectStruct), f ∉ names →
    lookupAL f s = some .Map →
    lookupAL f (names.foldl absentFieldStep s) = some .Map := by
  intro names
  induction names with
  | nil => intro s _ hm; exact hm
  | cons n rest ih =>
      intro s hni hm
      have hn : n ≠ f := fun h => hni (by simp [h])
      have hrest : f ∉ rest := fun h => hni (by simp [h])
      refine ih (absentFieldStep s n) hrest ?_
      show lookupAL f (insertAL n _ s) = some .Map
      rw [lookupAL_insertAL_ne _ (fun h => hn h.symm)]
      exact hm

/-- **C8**: with an override registered for (collection, field), folding
any document in which that field occurs — in particular holding a nested
object — stores the opaque `Map` type for the field, not an `Object`
descriptor built from the nested fields. -/
theorem claim_c8_map_override (cfg : Config) (cname f : String)
    (doc : Document) (schema : ObjectStruct)
    (hov : cfg.parse_field_as_map.contains (ParseAsMap.new cname f) = true)
    (hnew : lookupAL f schema = none)
    (_hobj : ∀ v, (f, v) ∈ doc → ∃ nested, v = Bson.document nested)
    (hocc : ∃ v, (f, v) ∈ doc) :
    lookupAL f (process_document cfg cname schema doc) = some .Map := by
  show lookupAL f ((doc.foldl (processFieldStep cfg cname)
      (schema, schema.map Prod.fst)).2.foldl absentFieldStep
      (doc.foldl (processFieldStep cfg cname)
        (schema, schema.map Prod.fst)).1) = some .Map
  have hfold : lookupAL f (doc.foldl (processFieldStep cfg cname)
      (schema, schema.map Prod.fst)).1 = some .Map :=
    fold_establishes_map hov doc (schema, schema.map Prod.fst) hnew hocc
  refine absent_map_stays _ _ (fun hf => ?_) hfold
  exact lookupAL_none_not_mem hnew
    (fold_snapshot_subset cfg cname doc (schema, schema.map Prod.fst) f hf)

/-- Witness for C8: a concrete override, nested-object document and empty
schema. -/
theorem claim_c8_witness :
    (Config.parse_field_as_map ⟨false, [⟨"c", "f"⟩]⟩).contains
        (ParseAsMap.new "c" "f") = true
      ∧ lookupAL "f" ([] : ObjectStruct) = none
      ∧ (∀ v, (("f", v) : String × Bson)
            ∈ [(("f" : String), Bson.document (.cons "x" .int32 .nil))]
          → ∃ nested, v = Bson.document nested)
      ∧ lookupAL "f" (process_document ⟨false, [⟨"c", "f"⟩]⟩ "c" []
          [("f", Bson.document (.cons "x" .int32 .nil))]) = some .Map := by
  refine ⟨rfl, rfl, ?_, ?_⟩
  · intro v hv
    rw [List.mem_singleton] at hv
    exact ⟨.cons "x" .int32 .nil, (Prod.ext_iff.mp hv).2⟩
  · exact claim_c8_map_override ⟨false, [⟨"c", "f"⟩]⟩ "c" "f"
      [("f", Bson.document (.cons "x" .int32 .nil))] [] rfl rfl
      (fun v hv => by
        rw [List.mem_singleton] at hv
        exact ⟨.cons "x" .int32 .nil, (Prod.ext_iff.mp hv).2⟩)
      ⟨Bson.document (.cons "x" .int32 .nil), by simp⟩

/-- **C9**: rendering is a pure function of the descriptor tree (in the
embedding, rendering the same schema twice is definitionally the same
bytes), a `Union` renders as its members' renderings joined by `" | "` in
the member sequence's order, and that sequence is canonically sorted for
any union a merge of canonical descriptors produces. -/
theorem claim_c9_render_determinism :
    (∀ (c : String) (fields : ObjectStruct),
        print_result c fields = print_result c fields)
      ∧ (∀ s, print_typescript (.Union s)
          = String.intercalate " | " (printMembers s))
      ∧ (∀ a b s, WellFormed a = true → WellFormed b = true →
          TypeScriptType.merge a b = .Union s → sortedB s = true) := by
  refine ⟨fun _ _ => rfl, fun s => rfl, fun a b s ha hb hm => ?_⟩
  rw [merge_alt] at hm
  obtain rfl := collapse_eq_union hm
    (allNonUnion_unionTL (alts_allNonUnion ha) (alts_allNonUnion hb))
  exact sorted_unionTL (alts_sorted ha) (alts_sorted hb)

/-- Witness for C9 at a concrete merge-produced union. -/
theorem claim_c9_witness :
    WellFormed .Number = true ∧ WellFormed .String = true
      ∧ TypeScriptType.merge .Number .String
          = .Union (.cons .Number (.cons .String .nil))
      ∧ sortedB (.cons .Number (.cons .String .nil)) = true :=
  ⟨rfl, rfl, rfl,
    claim_c9_render_determinism.2.2 .Number .String
      (.cons .Number (.cons .String .nil)) rfl rfl rfl⟩

/-- **C10**: the collection declaration header removes the name's first
character with `Vec::remove(0)` and no emptiness check: total (renders) for
every non-empty name, panics (modelled `none`) on the empty name. -/
theorem claim_c10_empty_name :
    CollectionName.debugFmt "" = none
      ∧ ∀ s : String, s ≠ "" → (CollectionName.debugFmt s).isSome = true := by
  refine ⟨rfl, fun s hne => ?_⟩
  obtain ⟨l⟩ := s
  cases l with
  | nil => exact absurd rfl hne
  | cons c rest => rfl

/-- Witness for C10 at a concrete non-empty collection name. -/
theorem claim_c10_witness :
    ("users" : String) ≠ "" ∧ (CollectionName.debugFmt "users").isSome = true :=
  ⟨by decide, claim_c10_empty_name.2 "users" (by decide)⟩

end MTA
